import Mathlib

/-!
Verification of the Huffman coding core (`src/huffman/tree.py`,
`src/huffman/encoder.py`, `src/io_helpers.py`).

Conventions of the embedding:
* Python byte values and counts are `Nat`.
* A Python `dict[int, int]` (byte histogram) is an association list
  `List (Nat × Nat)` in insertion order, with unique keys.
* A bit string (Python `str` of `'0'`/`'1'`) is a `List Bool`,
  `false` = `'0'`, `true` = `'1'`.
* Python's `list.sort` / `sorted` are stable sorts; they are modelled by
  `List.insertionSort`, which is stable and agrees with every stable sort
  on the same key.
-/

namespace HuffmanCoding

/-- Nodes of a Huffman tree, after `HuffmanNode` / `HuffmanLeaf` /
`HuffmanBranch` in `src/huffman/tree.py`: a leaf holds a frequency count
(`byte_counter`) and the byte value it represents; a branch holds the
combined count and exactly two children. -/
inductive HuffmanNode : Type where
  | leaf (byte_counter : Nat) (byte_value : Nat)
  | branch (byte_counter : Nat) (left right : HuffmanNode)
deriving DecidableEq, Repr

/-- The `byte_counter` attribute shared by leaves and branches. -/
def HuffmanNode.byte_counter : HuffmanNode → Nat
  | .leaf c _ => c
  | .branch c _ _ => c

/-- Sort key of `nodes.sort(key=lambda node: node.byte_counter)`
(`tree.py` line 117): compare nodes by frequency count. -/
def countLE (a b : HuffmanNode) : Prop :=
  a.byte_counter ≤ b.byte_counter

instance : DecidableRel countLE :=
  fun a b => Nat.decLe a.byte_counter b.byte_counter

/-- Sort key of `sorted(byte_histogram.items(), key=lambda item: item[1])`
(`tree.py` line 86): compare histogram entries by frequency. -/
def entryLE (p q : Nat × Nat) : Prop :=
  p.2 ≤ q.2

instance : DecidableRel entryLE :=
  fun p q => Nat.decLe p.2 q.2

instance : IsTotal (Nat × Nat) entryLE :=
  ⟨fun p q => Nat.le_total p.2 q.2⟩

instance : IsTrans (Nat × Nat) entryLE :=
  ⟨fun _ _ _ => Nat.le_trans⟩

/-- Embedding of `get_leaves_from_histogram` (`tree.py` lines 75-89): sort the histogram
items stably by frequency and turn each `(byte, count)` into a leaf. -/
def get_leaves_from_histogram (byte_histogram : List (Nat × Nat)) : List HuffmanNode :=
  (List.insertionSort entryLE byte_histogram).map fun p => .leaf p.2 p.1

/-- Embedding of `get_tree_from_leaves` (`tree.py` lines 92-119): while more than one
node remains, pop the two front nodes, combine them into a branch whose
count is the sum, append the branch and stably re-sort by count.  Returns
`none` on the empty list. -/
def get_tree_from_leaves : List HuffmanNode → Option HuffmanNode
  | [] => none
  | [n] => some n
  | l :: r :: rest =>
    get_tree_from_leaves
      (List.insertionSort countLE
        (rest ++ [.branch (l.byte_counter + r.byte_counter) l r]))
termination_by nodes => nodes.length
decreasing_by
  simp [List.length_insertionSort]

/-- The inner `traverse_tree` of `get_lut_from_tree_recursive`
(`tree.py` lines 195-203), which computes the same byte-to-code mapping as
the iterative `get_lut_from_tree` traversal: descending left appends `'0'`
(`false`), descending right appends `'1'` (`true`); a leaf contributes one
`(byte_value, bit_string)` entry. -/
def traverse_tree : HuffmanNode → List Bool → List (Nat × List Bool)
  | .leaf _ b, bit_string => [(b, bit_string)]
  | .branch _ l r, bit_string =>
    traverse_tree l (bit_string ++ [false]) ++ traverse_tree r (bit_string ++ [true])

/-- Embedding of `get_lut_from_tree` (`tree.py` lines 122-164): `None` gives the empty
table, a lone leaf gets the one-bit code `"0"`, otherwise the tree is
traversed accumulating path bits. -/
def get_lut_from_tree : Option HuffmanNode → List (Nat × List Bool)
  | none => []
  | some (.leaf _ b) => [(b, [false])]
  | some (.branch c l r) => traverse_tree (.branch c l r) []

/-- Embedding of `build_tree` (`tree.py` lines 210-228). -/
def build_tree (byte_histogram : List (Nat × Nat)) : Option HuffmanNode :=
  get_tree_from_leaves (get_leaves_from_histogram byte_histogram)

/-- Embedding of `build_lut_from_histogram` (`tree.py` lines 231-249); `get_lut_from_tree`
already maps `None` to the empty table, so the Python guard
`... if tree else {}` is subsumed. -/
def build_lut_from_histogram (byte_histogram : List (Nat × Nat)) : List (Nat × List Bool) :=
  get_lut_from_tree (build_tree byte_histogram)

/-- Embedding of `get_bytes_from_histogram_entry` (`encoder.py` lines 8-35): one byte for
the value, four bytes for the count, big-endian. -/
def get_bytes_from_histogram_entry (byte_value count : Nat) : List Nat :=
  [byte_value &&& 0xFF,
   (count >>> 24) &&& 0xFF,
   (count >>> 16) &&& 0xFF,
   (count >>> 8) &&& 0xFF,
   count &&& 0xFF]

/-- Embedding of `get_file_header_from_histogram` (`encoder.py` lines 38-68): magic
`b"HUFF"`, two-byte big-endian entry count, then the serialized entries in
the histogram's iteration order. -/
def get_file_header_from_histogram (byte_histogram : List (Nat × Nat)) : List Nat :=
  [72, 85, 70, 70] ++
  [(byte_histogram.length >>> 8) &&& 0xFF, byte_histogram.length &&& 0xFF] ++
  (byte_histogram.map fun p => get_bytes_from_histogram_entry p.1 p.2).flatten

/-- Embedding of `get_bit_seq_from_data_block` (`encoder.py` lines 71-99): map each byte
through the encoding table, concatenating the codes; the first byte missing
from the table raises `ValueError` carrying that byte, modelled by
`Except.error`. -/
def get_bit_seq_from_data_block : List Nat → List (Nat × List Bool) → Except Nat (List Bool)
  | [], _ => .ok []
  | byte :: rest, encoding_table =>
    match encoding_table.lookup byte with
    | none => .error byte
    | some encoded_bits =>
      match get_bit_seq_from_data_block rest encoding_table with
      | .error e => .error e
      | .ok s => .ok (encoded_bits ++ s)

/-- Embedding of `int(bit_str, 2)` (`encoder.py` line 122) on a bit string: the first
bit is the most significant. -/
def bitsToNat (bits : List Bool) : Nat :=
  bits.foldl (fun acc b => 2 * acc + (if b then 1 else 0)) 0

/-- Embedding of `get_write_buffer_from_bit_seq` (`encoder.py` lines 102-127): while at
least 8 bits remain, convert the front 8 bits into one byte (first bit most
significant) and append it to the write buffer; return the leftover bits
and the buffer. -/
def get_write_buffer_from_bit_seq : List Bool → List Bool × List Nat
  | b0 :: b1 :: b2 :: b3 :: b4 :: b5 :: b6 :: b7 :: rest =>
    ((get_write_buffer_from_bit_seq rest).1,
      bitsToNat [b0, b1, b2, b3, b4, b5, b6, b7] :: (get_write_buffer_from_bit_seq rest).2)
  | bit_seq => (bit_seq, [])

/-- One byte added to the histogram,
`byte_histogram[byte] = byte_histogram.get(byte, 0) + 1`
(`io_helpers.py` line 28): an existing key is incremented in place
(Python dicts keep insertion order), a new key is appended with count 1. -/
def histogram_update : List (Nat × Nat) → Nat → List (Nat × Nat)
  | [], byte => [(byte, 1)]
  | (k, v) :: rest, byte =>
    if k = byte then (k, v + 1) :: rest else (k, v) :: histogram_update rest byte

/-- Embedding of `get_byte_histogram_from_file` (`io_helpers.py` lines 6-30) applied to
the full byte content of the file: the block-by-block reading only chunks
the same per-byte loop, so the histogram is a fold over the bytes. -/
def get_byte_histogram_from_data (data : List Nat) : List (Nat × Nat) :=
  data.foldl histogram_update []

/-- The end-of-stream padding of `encode_file`
(`io_helpers.py` line 88): `bit_seq += (8 - len(bit_seq)) * "0"`. -/
def pad_final_bits (bit_seq : List Bool) : List Bool :=
  bit_seq ++ List.replicate (8 - bit_seq.length) false

/-- The block loop of `encode_file` (`io_helpers.py` lines 76-84) on the
byte content of the source: as long as `src.read(blocksize)` returns a
non-empty block (i.e. `data.take blocksize ≠ []`), encode the block, pack
the accumulated bit sequence into bytes, emit those bytes and carry the
remainder into the next round.  Returns the final carried remainder and
the concatenation of all emitted payload bytes, or the `ValueError` byte
from `get_bit_seq_from_data_block`. -/
def encode_blocks (data : List Nat) (blocksize : Nat) (enc_lut : List (Nat × List Bool))
    (bit_seq : List Bool) : Except Nat (List Bool × List Nat) :=
  if hb : data.take blocksize = [] then .ok (bit_seq, [])
  else
    match get_bit_seq_from_data_block (data.take blocksize) enc_lut with
    | .error e => .error e
    | .ok bits =>
      match encode_blocks (data.drop blocksize) blocksize enc_lut
          (get_write_buffer_from_bit_seq (bit_seq ++ bits)).1 with
      | .error e => .error e
      | .ok (final_rem, rest) =>
        .ok (final_rem, (get_write_buffer_from_bit_seq (bit_seq ++ bits)).2 ++ rest)
termination_by data.length
decreasing_by
  cases data with
  | nil => simp at hb
  | cons a t =>
    cases blocksize with
    | zero => simp at hb
    | succ n => simp [Nat.succ_sub_succ]; omega

/-- Embedding of `encode_file` (`io_helpers.py` lines 33-90) as a function from the
source byte content to the destination byte content: header, then the
packed payload, then — if bits remain — the zero-padded final byte. -/
def encode_file (src : List Nat) (blocksize : Nat) : Except Nat (List Nat) :=
  match encode_blocks src blocksize
      (build_lut_from_histogram (get_byte_histogram_from_data src)) [] with
  | .error e => .error e
  | .ok (bit_seq, payload) =>
    .ok (get_file_header_from_histogram (get_byte_histogram_from_data src) ++ payload ++
      (if bit_seq = [] then [] else (get_write_buffer_from_bit_seq (pad_final_bits bit_seq)).2))

/-- A working-set node of `get_tree_from_leaves` together with the position
at which it entered the working set: the initial leaves are numbered by
their position in the stable, frequency-sorted leaf list, and every node
appended later (`nodes.append(combined)`, `tree.py` line 116) receives the
next number.  Instrumentation for the tie-break analysis; the sort ignores
`idx`, so projecting `node` away recovers the uninstrumented run. -/
structure TaggedNode where
  node : HuffmanNode
  idx : Nat
deriving DecidableEq, Repr

/-- The weight-only sort key of `nodes.sort(key=lambda node: node.byte_counter)`
lifted to tagged nodes. -/
def taggedLE (a b : TaggedNode) : Prop :=
  a.node.byte_counter ≤ b.node.byte_counter

instance : DecidableRel taggedLE :=
  fun a b => Nat.decLe a.node.byte_counter b.node.byte_counter

/-- One iteration of the `while len(nodes) > 1` loop of
`get_tree_from_leaves` (`tree.py` lines 106-117) on the instrumented
working set: pop the two front nodes, combine them, append the combined
node (tagged with the next insertion number) and stably re-sort by weight.
States with fewer than two nodes are left unchanged (the loop has exited). -/
def merge_step : List TaggedNode × Nat → List TaggedNode × Nat
  | (l :: r :: rest, c) =>
    (List.insertionSort taggedLE
      (rest ++ [⟨.branch (l.node.byte_counter + r.node.byte_counter) l.node r.node, c⟩]),
     c + 1)
  | s => s

/-- The instrumented working set at loop entry: the stable,
frequency-sorted leaves of the histogram, numbered 0, 1, 2, … in order. -/
def initial_working_set (byte_histogram : List (Nat × Nat)) : List TaggedNode × Nat :=
  ((get_leaves_from_histogram byte_histogram).enum.map fun p => ⟨p.2, p.1⟩,
   (get_leaves_from_histogram byte_histogram).length)

/-- The instrumented working set after `n` iterations of the merge loop. -/
def working_set_after (byte_histogram : List (Nat × Nat)) (n : Nat) : List TaggedNode × Nat :=
  merge_step^[n] (initial_working_set byte_histogram)

/-! ## Basic evaluation lemmas -/

/-- A one-entry histogram builds the one-leaf tree. -/
lemma build_tree_single (k c : Nat) : build_tree [(k, c)] = some (.leaf c k) := by
  simp [build_tree, get_leaves_from_histogram, get_tree_from_leaves, List.insertionSort]

/-- A one-entry histogram gets the one-entry table with code `"0"`. -/
lemma build_lut_single (k c : Nat) :
    build_lut_from_histogram [(k, c)] = [(k, [false])] := by
  simp [build_lut_from_histogram, build_tree_single, get_lut_from_tree]

/-! ## C2: no synthetic leaf is injected for a single-byte histogram -/

/-- C2 (counterexample): for the one-byte histogram `{65: 3}` the tree
builder returns the single real leaf itself as the root — no synthetic
zero-weight leaf is injected and no branch is formed, contradicting the
claim that the root is never a single real leaf. -/
theorem single_byte_root_is_leaf : build_tree [(65, 3)] = some (.leaf 3 65) :=
  build_tree_single 65 3

/-- C2 (amended): for every histogram with exactly one distinct byte,
`build_tree` injects nothing and returns the single real leaf as the root;
the degenerate case is handled downstream by `get_lut_from_tree`, which
maps a lone-leaf tree to the one-bit code `"0"`. -/
theorem single_byte_tree_and_lut (k c : Nat) :
    build_tree [(k, c)] = some (.leaf c k) ∧
    build_lut_from_histogram [(k, c)] = [(k, [false])] :=
  ⟨build_tree_single k c, build_lut_single k c⟩

/-! ## C3: a single-key histogram yields a code of length ≥ 1 -/

/-- C3: for every histogram with exactly one key, the code table produced
by `build_lut_from_histogram` maps that key to a code of length at least 1
(never a zero-length code). -/
theorem single_key_code_nonempty (k c : Nat) :
    ∃ code, (build_lut_from_histogram [(k, c)]).lookup k = some code ∧ 1 ≤ code.length := by
  refine ⟨[false], ?_, by simp⟩
  rw [build_lut_single]
  simp

/-! ## C7: file header layout -/

/-- Masking with `0xFF` keeps the low byte. -/
lemma and_255_eq_mod (x : Nat) : x &&& 255 = x % 256 := by
  have h := Nat.and_pow_two_sub_one_eq_mod x 8
  norm_num at h
  exact h

/-- A serialized entry is the value byte followed by the four count bytes,
most significant first. -/
lemma entry_bytes_eq (v c : Nat) :
    get_bytes_from_histogram_entry v c =
      [v % 256, c / 2 ^ 24 % 256, c / 2 ^ 16 % 256, c / 2 ^ 8 % 256, c % 256] := by
  simp [get_bytes_from_histogram_entry, and_255_eq_mod, Nat.shiftRight_eq_div_pow]

/-- C7: for every histogram, the serialized header is the 4-byte magic
`"HUFF"`, the 2-byte big-endian entry count, then one 5-byte record per
entry (value byte, then the 4-byte big-endian frequency) in the
histogram's iteration order; in particular `{65: 255, 66: 254, 67: 253}`
serializes to `"HUFF" + 0x0003 + (65,0,0,0,255) + (66,0,0,0,254) +
(67,0,0,0,253)`. -/
theorem file_header_layout :
    (∀ byte_histogram : List (Nat × Nat),
      get_file_header_from_histogram byte_histogram =
        [72, 85, 70, 70] ++
        [byte_histogram.length / 256 % 256, byte_histogram.length % 256] ++
        (byte_histogram.map fun p =>
          [p.1 % 256, p.2 / 2 ^ 24 % 256, p.2 / 2 ^ 16 % 256, p.2 / 2 ^ 8 % 256,
            p.2 % 256]).flatten) ∧
    get_file_header_from_histogram [(65, 255), (66, 254), (67, 253)] =
      [72, 85, 70, 70, 0, 3,
       65, 0, 0, 0, 255, 66, 0, 0, 0, 254, 67, 0, 0, 0, 253] := by
  constructor
  · intro byte_histogram
    simp [get_file_header_from_histogram, entry_bytes_eq, and_255_eq_mod,
      Nat.shiftRight_eq_div_pow]
  · decide

/-! ## C5: the bit packer -/

/-- Full characterization of `get_write_buffer_from_bit_seq`: the
remainder is what is left after all complete 8-bit runs (hence shorter
than 8), and the buffer holds one byte per complete run, in order, first
bit most significant. -/
lemma write_buffer_char (s : List Bool) :
    (get_write_buffer_from_bit_seq s).1 = s.drop (8 * (s.length / 8)) ∧
    (get_write_buffer_from_bit_seq s).1.length < 8 ∧
    (get_write_buffer_from_bit_seq s).2 =
      (List.range (s.length / 8)).map fun i => bitsToNat ((s.drop (8 * i)).take 8) := by
  induction s using get_write_buffer_from_bit_seq.induct with
  | case1 b0 b1 b2 b3 b4 b5 b6 b7 rest ih =>
    obtain ⟨ih1, ih2, ih3⟩ := ih
    have hlen : (b0 :: b1 :: b2 :: b3 :: b4 :: b5 :: b6 :: b7 :: rest).length =
        rest.length + 8 := by simp
    have hdiv : (rest.length + 8) / 8 = rest.length / 8 + 1 := Nat.add_div_right _ (by omega)
    refine ⟨?_, ih2, ?_⟩
    · show (get_write_buffer_from_bit_seq rest).1 = _
      rw [ih1, hlen, hdiv, Nat.mul_succ, Nat.add_comm (8 * (rest.length / 8)) 8,
        ← List.drop_drop (8 * (rest.length / 8)) 8]
      rfl
    · show bitsToNat [b0, b1, b2, b3, b4, b5, b6, b7] ::
          (get_write_buffer_from_bit_seq rest).2 = _
      rw [hlen, hdiv, List.range_succ_eq_map, List.map_cons, List.map_map, ih3]
      congr 1
  | case2 s h1 =>
    have hlen : s.length < 8 := by
      rcases s with _ | ⟨a, _ | ⟨b, _ | ⟨c, _ | ⟨d, _ | ⟨e, _ | ⟨f, _ | ⟨g, _ | ⟨x, t⟩⟩⟩⟩⟩⟩⟩⟩ <;>
        first
          | exact absurd rfl (h1 _ _ _ _ _ _ _ _ _)
          | simp
    have hq : s.length / 8 = 0 := Nat.div_eq_of_lt hlen
    have hg : get_write_buffer_from_bit_seq s = (s, []) := by
      rcases s with _ | ⟨a, _ | ⟨b, _ | ⟨c, _ | ⟨d, _ | ⟨e, _ | ⟨f, _ | ⟨g, _ | ⟨x, t⟩⟩⟩⟩⟩⟩⟩⟩ <;>
        first
          | exact absurd rfl (h1 _ _ _ _ _ _ _ _ _)
          | rfl
    rw [hg, hq]
    simpa using hlen

/-- C5: for every input bit string, the packer extracts each complete run
of 8 bits in order, turns each run into one byte with the run's first bit
as the most significant bit, and returns the leftover bits (always fewer
than 8) together with the byte buffer; in particular `"1010100011"`
yields remainder `"11"` and the one-byte buffer `[0b10101000]`. -/
theorem write_buffer_spec :
    (∀ s : List Bool,
      (get_write_buffer_from_bit_seq s).1 = s.drop (8 * (s.length / 8)) ∧
      (get_write_buffer_from_bit_seq s).1.length < 8 ∧
      (get_write_buffer_from_bit_seq s).2 =
        (List.range (s.length / 8)).map fun i => bitsToNat ((s.drop (8 * i)).take 8)) ∧
    get_write_buffer_from_bit_seq
        [true, false, true, false, true, false, false, false, true, true] =
      ([true, true], [168]) :=
  ⟨write_buffer_char, by decide⟩

/-! ## C6: end-of-stream padding -/

/-- C6: when the encode pipeline ends with a non-empty remainder of fewer
than 8 bits, the remainder is padded with binary zeros to a full byte and
flushed as exactly one trailing byte; e.g. remainder `"101"` is written
as the single byte `0b10100000`. -/
theorem final_padding_flush (bit_seq : List Bool) (hne : bit_seq ≠ [])
    (hlt : bit_seq.length < 8) :
    pad_final_bits bit_seq = bit_seq ++ List.replicate (8 - bit_seq.length) false ∧
    (get_write_buffer_from_bit_seq (pad_final_bits bit_seq)).2 =
      [bitsToNat (pad_final_bits bit_seq)] ∧
    (get_write_buffer_from_bit_seq (pad_final_bits bit_seq)).1 = [] := by
  have hpadlen : (pad_final_bits bit_seq).length = 8 := by
    have h0 : 0 < bit_seq.length := List.length_pos.mpr hne
    simp [pad_final_bits]
    omega
  obtain ⟨h1, _, h3⟩ := write_buffer_char (pad_final_bits bit_seq)
  rw [hpadlen] at h1 h3
  norm_num at h1 h3
  refine ⟨rfl, ?_, ?_⟩
  · rw [h3, show List.range 1 = [0] from rfl, List.map_cons, List.map_nil]
    simp [List.take_of_length_le (le_of_eq hpadlen)]
  · rw [h1, List.drop_eq_nil_of_le (le_of_eq hpadlen)]

/-- Witness for C6 at the remainder `"101"`: it is flushed as the single
byte `0b10100000 = 160`. -/
theorem final_padding_flush_witness :
    (get_write_buffer_from_bit_seq (pad_final_bits [true, false, true])).2 = [160] ∧
    (get_write_buffer_from_bit_seq (pad_final_bits [true, false, true])).1 = [] := by
  obtain ⟨-, h2, h3⟩ := final_padding_flush [true, false, true] (by decide) (by decide)
  exact ⟨by rw [h2]; decide, h3⟩

/-! ## C9: block encoding fails exactly on bytes missing from the table -/

/-- C9: encoding a data block through `get_bit_seq_from_data_block`
succeeds with the concatenation of the per-byte codes exactly when every
byte of the block has an entry in the encoding table; otherwise it fails
with an error that reports an offending byte — a byte of the block that
has no entry in the table. -/
theorem data_block_encoding (data_block : List Nat)
    (encoding_table : List (Nat × List Bool)) :
    match get_bit_seq_from_data_block data_block encoding_table with
    | .ok s =>
        (∀ byte ∈ data_block, (encoding_table.lookup byte).isSome) ∧
        s = data_block.flatMap fun byte => (encoding_table.lookup byte).getD []
    | .error e => e ∈ data_block ∧ encoding_table.lookup e = none := by
  induction data_block with
  | nil => exact ⟨by simp, rfl⟩
  | cons byte rest ih =>
    simp only [get_bit_seq_from_data_block]
    cases hl : encoding_table.lookup byte with
    | none => exact ⟨List.mem_cons_self byte rest, hl⟩
    | some encoded_bits =>
      cases hr : get_bit_seq_from_data_block rest encoding_table with
      | error e =>
        rw [hr] at ih
        exact ⟨List.mem_cons_of_mem byte ih.1, ih.2⟩
      | ok s =>
        rw [hr] at ih
        refine ⟨?_, ?_⟩
        · intro b hb
          rcases List.mem_cons.mp hb with rfl | hb
          · simp [hl]
          · exact ih.1 b hb
        · rw [List.flatMap_cons, hl, ih.2]
          rfl

/-! ## C10: encoding the empty source -/

/-- C10: for the empty histogram `build_tree` returns `none` and
`build_lut_from_histogram` returns the empty table, so encoding an empty
source writes exactly the 6-byte header (`"HUFF"` plus a zero entry
count) and no payload bytes, whatever the block size. -/
theorem empty_source_encoding (blocksize : Nat) :
    build_tree [] = none ∧
    build_lut_from_histogram [] = [] ∧
    encode_file [] blocksize = .ok [72, 85, 70, 70, 0, 0] := by
  refine ⟨?_, ?_, ?_⟩
  · simp [build_tree, get_leaves_from_histogram, get_tree_from_leaves, List.insertionSort]
  · simp [build_lut_from_histogram, build_tree, get_leaves_from_histogram,
      get_tree_from_leaves, get_lut_from_tree, List.insertionSort]
  · simp [encode_file, encode_blocks, get_byte_histogram_from_data,
      get_file_header_from_histogram]

/-! ## C1: the code table is prefix-free -/

/-- Every code produced below a node extends the bit path accumulated so
far. -/
lemma traverse_code_extends {t : HuffmanNode} {pre : List Bool} {e : Nat × List Bool}
    (he : e ∈ traverse_tree t pre) : pre <+: e.2 := by
  induction t generalizing pre with
  | leaf c b =>
    simp [traverse_tree] at he
    simp [he]
  | branch c l r ihl ihr =>
    rcases List.mem_append.mp he with h | h
    · exact (List.prefix_append pre [false]).trans (ihl h)
    · exact (List.prefix_append pre [true]).trans (ihr h)

/-- Two codes that extend the same path by different bits are
prefix-incomparable. -/
lemma codes_incomparable {pre c1 c2 : List Bool} {b1 b2 : Bool} (hne : b1 ≠ b2)
    (h1 : pre ++ [b1] <+: c1) (h2 : pre ++ [b2] <+: c2) : ¬ c1 <+: c2 := by
  intro hc
  have hf : pre ++ [b1] <+: c2 := h1.trans hc
  have hlen : (pre ++ [b1]).length = (pre ++ [b2]).length := by simp
  have hp := List.prefix_of_prefix_length_le hf h2 (le_of_eq hlen)
  have heq := hp.eq_of_length hlen
  simp at heq
  exact hne heq

/-- The entries discovered by the traversal are pairwise
prefix-incomparable. -/
lemma traverse_pairwise (t : HuffmanNode) (pre : List Bool) :
    (traverse_tree t pre).Pairwise
      (fun e1 e2 => ¬ e1.2 <+: e2.2 ∧ ¬ e2.2 <+: e1.2) := by
  induction t generalizing pre with
  | leaf c b => simp [traverse_tree]
  | branch c l r ihl ihr =>
    simp only [traverse_tree]
    refine List.pairwise_append.mpr ⟨ihl _, ihr _, ?_⟩
    intro e1 h1 e2 h2
    have p1 := traverse_code_extends h1
    have p2 := traverse_code_extends h2
    exact ⟨codes_incomparable (by simp) p1 p2, codes_incomparable (by simp) p2 p1⟩

/-- A successful association-list lookup exhibits a member. -/
lemma lookup_mem {l : List (Nat × List Bool)} {k : Nat} {v : List Bool}
    (h : l.lookup k = some v) : (k, v) ∈ l := by
  obtain ⟨l₁, l₂, rfl, -⟩ := List.lookup_eq_some_iff.mp h
  simp

/-- C1: for every histogram with at least 2 distinct keys, the code table
produced by `build_lut_from_histogram` is prefix-free: the code of a byte
is never a prefix of the code of a different byte in the same table. -/
theorem lut_prefix_free (byte_histogram : List (Nat × Nat))
    (hkeys : (byte_histogram.map Prod.fst).Nodup)
    (hlen : 2 ≤ byte_histogram.length)
    (b1 b2 : Nat) (c1 c2 : List Bool) (hne : b1 ≠ b2)
    (h1 : (build_lut_from_histogram byte_histogram).lookup b1 = some c1)
    (h2 : (build_lut_from_histogram byte_histogram).lookup b2 = some c2) :
    ¬ c1 <+: c2 := by
  rcases htree : build_tree byte_histogram with _ | t
  · rw [build_lut_from_histogram, htree] at h1
    simp [get_lut_from_tree] at h1
  · cases t with
    | leaf c b =>
      rw [build_lut_from_histogram, htree] at h1 h2
      simp only [get_lut_from_tree] at h1 h2
      have e1 : b1 = b := by
        by_contra ne
        have hb1 : (b1 == b) = false := by simpa using ne
        simp [List.lookup_cons, hb1] at h1
      have e2 : b2 = b := by
        by_contra ne
        have hb2 : (b2 == b) = false := by simpa using ne
        simp [List.lookup_cons, hb2] at h2
      exact absurd (e1.trans e2.symm) hne
    | branch c l r =>
      rw [build_lut_from_histogram, htree] at h1 h2
      simp only [get_lut_from_tree] at h1 h2
      have m1 : (b1, c1) ∈ traverse_tree (.branch c l r) [] := lookup_mem h1
      have m2 : (b2, c2) ∈ traverse_tree (.branch c l r) [] := lookup_mem h2
      have hsym : Symmetric (fun e1 e2 : Nat × List Bool =>
          ¬ e1.2 <+: e2.2 ∧ ¬ e2.2 <+: e1.2) := fun x y h => ⟨h.2, h.1⟩
      have hpair := (traverse_pairwise (.branch c l r) []).forall hsym
      exact (hpair m1 m2 (fun h => hne (congrArg Prod.fst h))).1

/-- Concrete code table for the histogram `{65: 5, 66: 2, 67: 1}`:
byte 67 gets `"00"`, byte 66 gets `"01"`, byte 65 gets `"1"`. -/
lemma example_lut_eval :
    build_lut_from_histogram [(65, 5), (66, 2), (67, 1)] =
      [(67, [false, false]), (66, [false, true]), (65, [true])] := by
  simp [build_lut_from_histogram, build_tree, get_leaves_from_histogram,
    List.insertionSort, List.orderedInsert, entryLE, get_tree_from_leaves,
    countLE, HuffmanNode.byte_counter, get_lut_from_tree, traverse_tree]

/-- Witness for C1 on the histogram `{65: 5, 66: 2, 67: 1}`: the code of
byte 65 is not a prefix of the code of byte 66. -/
theorem lut_prefix_free_witness : ¬ [true] <+: [false, true] :=
  lut_prefix_free [(65, 5), (66, 2), (67, 1)] (by decide) (by decide)
    65 66 [true] [false, true] (by decide)
    (by rw [example_lut_eval]; decide)
    (by rw [example_lut_eval]; decide)

/-! ## C8: the code table has exactly the histogram's keys -/

/-- The byte values stored in the leaves of a tree, left to right. -/
def leafValues : HuffmanNode → List Nat
  | .leaf _ b => [b]
  | .branch _ l r => leafValues l ++ leafValues r

/-- The leaf byte values of every node in a working list, in order. -/
def leafValuesList : List HuffmanNode → List Nat
  | [] => []
  | n :: rest => leafValues n ++ leafValuesList rest

/-- The keys of the traversal's table are the tree's leaf values. -/
lemma map_fst_traverse (t : HuffmanNode) (pre : List Bool) :
    (traverse_tree t pre).map Prod.fst = leafValues t := by
  induction t generalizing pre with
  | leaf c b => simp [traverse_tree, leafValues]
  | branch c l r ihl ihr => simp [traverse_tree, leafValues, ihl, ihr]

lemma leafValuesList_append (l1 l2 : List HuffmanNode) :
    leafValuesList (l1 ++ l2) = leafValuesList l1 ++ leafValuesList l2 := by
  induction l1 with
  | nil => simp [leafValuesList]
  | cons n rest ih => simp [leafValuesList, ih]

/-- Permuting the working list permutes its leaf values. -/
lemma leafValuesList_perm {l1 l2 : List HuffmanNode} (h : l1.Perm l2) :
    (leafValuesList l1).Perm (leafValuesList l2) := by
  induction h with
  | nil => exact List.Perm.refl _
  | cons x h ih => exact ih.append_left (leafValues x)
  | swap x y l =>
    show (leafValues y ++ (leafValues x ++ leafValuesList l)).Perm
      (leafValues x ++ (leafValues y ++ leafValuesList l))
    rw [← List.append_assoc, ← List.append_assoc]
    exact List.perm_append_comm.append_right (leafValuesList l)
  | trans h1 h2 ih1 ih2 => exact ih1.trans ih2

/-- The merge loop preserves the multiset of leaf byte values. -/
lemma tree_leafValues_perm (nodes : List HuffmanNode) (t : HuffmanNode) :
    get_tree_from_leaves nodes = some t → (leafValues t).Perm (leafValuesList nodes) := by
  induction nodes using get_tree_from_leaves.induct with
  | case1 =>
    intro h
    simp [get_tree_from_leaves] at h
  | case2 n =>
    intro h
    simp only [get_tree_from_leaves, Option.some.injEq] at h
    subst h
    simp [leafValuesList]
  | case3 l r rest ih =>
    intro h
    simp only [get_tree_from_leaves] at h
    refine (ih h).trans ?_
    refine (leafValuesList_perm (List.perm_insertionSort countLE _)).trans ?_
    rw [leafValuesList_append]
    show (leafValuesList rest ++ (leafValues l ++ leafValues r ++ [])).Perm
      (leafValues l ++ (leafValues r ++ leafValuesList rest))
    rw [List.append_nil, ← List.append_assoc (leafValues l) (leafValues r) (leafValuesList rest)]
    exact List.perm_append_comm

/-- The merge loop returns a root for every non-empty working list. -/
lemma tree_isSome (nodes : List HuffmanNode) :
    nodes ≠ [] → (get_tree_from_leaves nodes).isSome := by
  induction nodes using get_tree_from_leaves.induct with
  | case1 => intro h; exact absurd rfl h
  | case2 n => intro _; simp [get_tree_from_leaves]
  | case3 l r rest ih =>
    intro _
    simp only [get_tree_from_leaves]
    refine ih ?_
    have hl : (List.insertionSort countLE
        (rest ++ [HuffmanNode.branch (l.byte_counter + r.byte_counter) l r])).length =
        rest.length + 1 := by
      rw [List.length_insertionSort]
      simp
    intro hnil
    rw [hnil] at hl
    simp at hl

/-- The leaf values of the initial leaves are the histogram's keys, up to
the stable sort's permutation. -/
lemma leafValues_of_leaves (byte_histogram : List (Nat × Nat)) :
    (leafValuesList (get_leaves_from_histogram byte_histogram)).Perm
      (byte_histogram.map Prod.fst) := by
  have h1 : ∀ ps : List (Nat × Nat),
      leafValuesList (ps.map fun p => HuffmanNode.leaf p.2 p.1) = ps.map Prod.fst := by
    intro ps
    induction ps with
    | nil => rfl
    | cons p rest ih => simp [leafValuesList, leafValues, ih]
  rw [get_leaves_from_histogram, h1]
  exact (List.perm_insertionSort entryLE byte_histogram).map Prod.fst

/-- C8: for every histogram, every key of the histogram appears exactly
once as a key of the code table produced by `build_lut_from_histogram`,
and the table has no entries for bytes absent from the histogram: its key
list is a duplicate-free permutation of the histogram's key list. -/
theorem lut_keys_exact (byte_histogram : List (Nat × Nat))
    (hkeys : (byte_histogram.map Prod.fst).Nodup) :
    ((build_lut_from_histogram byte_histogram).map Prod.fst).Perm
      (byte_histogram.map Prod.fst) ∧
    ((build_lut_from_histogram byte_histogram).map Prod.fst).Nodup := by
  have hperm : ((build_lut_from_histogram byte_histogram).map Prod.fst).Perm
      (byte_histogram.map Prod.fst) := by
    rcases htree : build_tree byte_histogram with _ | t
    · have hnil : get_leaves_from_histogram byte_histogram = [] := by
        by_contra hne
        have hs := tree_isSome _ hne
        rw [build_tree] at htree
        rw [htree] at hs
        simp at hs
      have hempty : byte_histogram = [] := by
        have hl := congrArg List.length hnil
        simp [get_leaves_from_histogram, List.length_insertionSort] at hl
        exact hl
      subst hempty
      rw [build_lut_from_histogram, htree]
      simp [get_lut_from_tree]
    · rw [build_tree] at htree
      have hlv := (tree_leafValues_perm _ _ htree).trans
        (leafValues_of_leaves byte_histogram)
      cases t with
      | leaf c b =>
        rw [build_lut_from_histogram, build_tree, htree]
        simp only [get_lut_from_tree]
        simpa [leafValues] using hlv
      | branch c l r =>
        rw [build_lut_from_histogram, build_tree, htree]
        simp only [get_lut_from_tree]
        rw [map_fst_traverse]
        exact hlv
  exact ⟨hperm, hperm.symm.nodup hkeys⟩

/-- Witness for C8 on the histogram `{65: 5, 66: 2, 67: 1}`. -/
theorem lut_keys_exact_witness :
    ((build_lut_from_histogram [(65, 5), (66, 2), (67, 1)]).map Prod.fst).Perm
      ([(65, 5), (66, 2), (67, 1)].map Prod.fst) ∧
    ((build_lut_from_histogram [(65, 5), (66, 2), (67, 1)]).map Prod.fst).Nodup :=
  lut_keys_exact [(65, 5), (66, 2), (67, 1)] (by decide)

/-! ## C4: the merge loop's tie-break

The working set is kept sorted by weight and, among equal weights, by
insertion number: the stable sort never moves an equal-weight node past an
earlier one, and the freshly appended combined node carries the largest
insertion number.  Hence the two nodes popped at the front are always,
among minimal-weight candidates, the earliest inserted. -/

/-- Order by weight first and, among equal weights, by insertion number. -/
def lexLE (a b : TaggedNode) : Prop :=
  a.node.byte_counter < b.node.byte_counter ∨
    (a.node.byte_counter = b.node.byte_counter ∧ a.idx ≤ b.idx)

lemma lexLE_weight {a b : TaggedNode} (h : lexLE a b) :
    a.node.byte_counter ≤ b.node.byte_counter := by
  rcases h with h | ⟨h, -⟩
  · exact le_of_lt h
  · exact le_of_eq h

lemma lexLE_idx {a b : TaggedNode} (h : lexLE a b)
    (heq : a.node.byte_counter = b.node.byte_counter) : a.idx ≤ b.idx := by
  rcases h with h | ⟨-, h⟩
  · exact absurd heq (Nat.ne_of_lt h)
  · exact h

/-- Inserting a node whose insertion number does not precede any
equal-weight node of a lexicographically sorted list keeps the list
lexicographically sorted. -/
lemma orderedInsert_lex {a : TaggedNode} {l : List TaggedNode}
    (hl : l.Sorted lexLE)
    (ha : ∀ y ∈ l, a.node.byte_counter = y.node.byte_counter → a.idx ≤ y.idx) :
    (List.orderedInsert taggedLE a l).Sorted lexLE := by
  induction l with
  | nil => simp [List.orderedInsert]
  | cons b t ih =>
    rw [List.orderedInsert]
    by_cases hab : taggedLE a b
    · rw [if_pos hab]
      refine List.sorted_cons.mpr ⟨?_, hl⟩
      intro y hy
      rcases List.mem_cons.mp hy with rfl | hy
      · rcases Nat.lt_or_ge a.node.byte_counter y.node.byte_counter with hlt | hge
        · exact Or.inl hlt
        · have heq : a.node.byte_counter = y.node.byte_counter := le_antisymm hab hge
          exact Or.inr ⟨heq, ha y (by simp) heq⟩
      · have hby : lexLE b y := List.rel_of_sorted_cons hl y hy
        have hbw := lexLE_weight hby
        rcases Nat.lt_or_ge a.node.byte_counter y.node.byte_counter with hlt | hge
        · exact Or.inl hlt
        · have heq : a.node.byte_counter = y.node.byte_counter :=
            le_antisymm (le_trans hab hbw) hge
          exact Or.inr ⟨heq, ha y (by simp [hy]) heq⟩
    · rw [if_neg hab]
      have hba : b.node.byte_counter < a.node.byte_counter := Nat.not_le.mp hab
      have htail : t.Sorted lexLE := (List.sorted_cons.mp hl).2
      refine List.sorted_cons.mpr
        ⟨?_, ih htail (fun y hy => ha y (List.mem_cons_of_mem b hy))⟩
      intro y hy
      rcases (List.mem_orderedInsert taggedLE).mp hy with rfl | hy
      · exact Or.inl hba
      · exact List.rel_of_sorted_cons hl y hy

/-- A stable weight-sort of a list whose equal-weight nodes already carry
non-decreasing insertion numbers is lexicographically sorted. -/
lemma insertionSort_lex {l : List TaggedNode}
    (h : l.Pairwise fun x y =>
      x.node.byte_counter = y.node.byte_counter → x.idx ≤ y.idx) :
    (List.insertionSort taggedLE l).Sorted lexLE := by
  induction l with
  | nil => simp [List.insertionSort]
  | cons a t ih =>
    rw [List.insertionSort]
    rcases List.pairwise_cons.mp h with ⟨ha, ht⟩
    refine orderedInsert_lex (ih ht) ?_
    intro y hy heq
    exact ha y ((List.mem_insertionSort taggedLE).mp hy) heq

/-- The invariant of the instrumented merge loop: the working set is
lexicographically sorted and every insertion number is below the
counter. -/
def working_inv (s : List TaggedNode × Nat) : Prop :=
  s.1.Sorted lexLE ∧ ∀ tn ∈ s.1, tn.idx < s.2

/-- Position and membership facts for `enumFrom`. -/
lemma mem_enumFrom_facts {α : Type} :
    ∀ (t : List α) (m i : Nat) (x : α),
      (i, x) ∈ t.enumFrom m → m ≤ i ∧ i < m + t.length ∧ x ∈ t := by
  intro t
  induction t with
  | nil => simp
  | cons a t ih =>
    intro m i x h
    rw [List.enumFrom_cons] at h
    rcases List.mem_cons.mp h with heq | h
    · injection heq with h1 h2
      subst h1
      subst h2
      exact ⟨Nat.le_refl _, by simp, List.mem_cons_self _ _⟩
    · obtain ⟨h1, h2, h3⟩ := ih (m + 1) i x h
      exact ⟨le_trans (Nat.le_succ m) h1, by simpa [Nat.add_comm, Nat.add_assoc,
        Nat.add_left_comm] using h2, List.mem_cons_of_mem a h3⟩

/-- Tagging a weight-sorted list with increasing insertion numbers gives a
lexicographically sorted working set. -/
lemma tagged_sorted :
    ∀ (ns : List HuffmanNode) (m : Nat), ns.Sorted countLE →
      ((ns.enumFrom m).map fun p => (⟨p.2, p.1⟩ : TaggedNode)).Sorted lexLE := by
  intro ns
  induction ns with
  | nil => intro m _; simp
  | cons a t ih =>
    intro m hs
    rw [List.enumFrom_cons, List.map_cons]
    rcases List.sorted_cons.mp hs with ⟨ha, ht⟩
    refine List.sorted_cons.mpr ⟨?_, ih (m + 1) ht⟩
    intro y hy
    obtain ⟨⟨i, nd⟩, hmem, rfl⟩ := List.mem_map.mp hy
    obtain ⟨hi, -, hnd⟩ := mem_enumFrom_facts t (m + 1) i nd hmem
    rcases Nat.lt_or_ge a.byte_counter nd.byte_counter with hlt | hge
    · exact Or.inl hlt
    · exact Or.inr ⟨le_antisymm (ha nd hnd) hge,
        le_trans (Nat.le_succ m) hi⟩

/-- The invariant holds at loop entry. -/
lemma initial_inv (byte_histogram : List (Nat × Nat)) :
    working_inv (initial_working_set byte_histogram) := by
  constructor
  · show (((get_leaves_from_histogram byte_histogram).enumFrom 0).map
      fun p => (⟨p.2, p.1⟩ : TaggedNode)).Sorted lexLE
    refine tagged_sorted _ 0 ?_
    show ((List.insertionSort entryLE byte_histogram).map
      fun p => HuffmanNode.leaf p.2 p.1).Sorted countLE
    refine List.Pairwise.map _ ?_ (List.sorted_insertionSort entryLE byte_histogram)
    intro p q hpq
    exact hpq
  · intro tn htn
    obtain ⟨⟨i, nd⟩, hmem, rfl⟩ := List.mem_map.mp htn
    obtain ⟨-, hlt, -⟩ :=
      mem_enumFrom_facts (get_leaves_from_histogram byte_histogram) 0 i nd hmem
    simpa using hlt

/-- One merge step preserves the invariant. -/
lemma step_inv {s : List TaggedNode × Nat} (h : working_inv s) :
    working_inv (merge_step s) := by
  rcases s with ⟨l, c⟩
  match l with
  | [] => exact h
  | [a] => exact h
  | a :: b :: rest =>
    obtain ⟨hsort, hidx⟩ := h
    constructor
    · refine insertionSort_lex ?_
      refine List.pairwise_append.mpr ⟨?_, by simp, ?_⟩
      · have hrest : rest.Sorted lexLE := hsort.of_cons.of_cons
        exact hrest.imp fun hxy heq => lexLE_idx hxy heq
      · intro x hx y hy
        rcases List.mem_cons.mp hy with rfl | hy
        · intro _
          exact le_of_lt (hidx x (by simp [hx]))
        · simp at hy
    · intro tn htn
      have hmem : tn ∈ rest ++
          [(⟨.branch (a.node.byte_counter + b.node.byte_counter) a.node b.node, c⟩ :
            TaggedNode)] := (List.mem_insertionSort taggedLE).mp htn
      rcases List.mem_append.mp hmem with hr | hr
      · exact lt_trans (hidx tn (by simp [hr])) (Nat.lt_succ_self c)
      · simp at hr
        rw [hr]
        exact Nat.lt_succ_self c

/-- The invariant holds after every number of iterations. -/
lemma inv_after (byte_histogram : List (Nat × Nat)) (n : Nat) :
    working_inv (working_set_after byte_histogram n) := by
  induction n with
  | zero => exact initial_inv byte_histogram
  | succ n ih =>
    show working_inv (merge_step^[n + 1] (initial_working_set byte_histogram))
    rw [Function.iterate_succ_apply']
    exact step_inv ih

/-- Projecting the instrumentation away commutes with one merge step: the
tagged loop performs exactly the pop-two/merge/append-and-stable-sort
procedure of `get_tree_from_leaves`. -/
lemma merge_step_projects (s : List TaggedNode × Nat) :
    get_tree_from_leaves ((merge_step s).1.map TaggedNode.node) =
      get_tree_from_leaves (s.1.map TaggedNode.node) := by
  rcases s with ⟨l, c⟩
  match l with
  | [] => rfl
  | [a] => rfl
  | a :: b :: rest =>
    show get_tree_from_leaves ((List.insertionSort taggedLE
        (rest ++ [(⟨.branch (a.node.byte_counter + b.node.byte_counter) a.node b.node, c⟩ :
          TaggedNode)])).map TaggedNode.node) = _
    rw [List.map_insertionSort taggedLE countLE TaggedNode.node _
      (fun x _ y _ => Iff.rfl), List.map_append]
    conv_rhs => rw [show ((a :: b :: rest).map TaggedNode.node) =
      a.node :: b.node :: rest.map TaggedNode.node from rfl]
    simp only [get_tree_from_leaves, List.map_cons, List.map_nil]

/-- The instrumented run computes `build_tree`: after any number of steps
the projected working set still folds to the same Huffman tree. -/
lemma working_set_projects (byte_histogram : List (Nat × Nat)) (n : Nat) :
    get_tree_from_leaves ((working_set_after byte_histogram n).1.map TaggedNode.node) =
      build_tree byte_histogram := by
  induction n with
  | zero =>
    show get_tree_from_leaves
      ((((get_leaves_from_histogram byte_histogram).enumFrom 0).map
        fun p => (⟨p.2, p.1⟩ : TaggedNode)).map TaggedNode.node) = _
    rw [List.map_map]
    have hsnd : ∀ (l : List HuffmanNode) (m : Nat),
        (l.enumFrom m).map (TaggedNode.node ∘ fun p => (⟨p.2, p.1⟩ : TaggedNode)) = l := by
      intro l
      induction l with
      | nil => intro m; rfl
      | cons x t ih => intro m; rw [List.enumFrom_cons, List.map_cons, ih (m + 1)]; rfl
    rw [hsnd]
    rfl
  | succ n ih =>
    show get_tree_from_leaves
      ((merge_step^[n + 1] (initial_working_set byte_histogram)).1.map TaggedNode.node) = _
    rw [Function.iterate_succ_apply']
    exact (merge_step_projects _).trans ih

/-- C4: at every iteration of the pop-two/merge/append-and-stable-sort
loop of `get_tree_from_leaves`, the node selected first (the head of the
working set) has minimal weight, and among nodes of that minimal weight it
is the one that entered the working set earliest; the node selected second
satisfies the same property among the remaining nodes. -/
theorem merge_tie_break (byte_histogram : List (Nat × Nat)) (n : Nat)
    (a b : TaggedNode) (l' : List TaggedNode)
    (h : (working_set_after byte_histogram n).1 = a :: b :: l') :
    (∀ tn ∈ a :: b :: l',
      a.node.byte_counter ≤ tn.node.byte_counter ∧
      (a.node.byte_counter = tn.node.byte_counter → a.idx ≤ tn.idx)) ∧
    (∀ tn ∈ b :: l',
      b.node.byte_counter ≤ tn.node.byte_counter ∧
      (b.node.byte_counter = tn.node.byte_counter → b.idx ≤ tn.idx)) := by
  have hinv := (inv_after byte_histogram n).1
  rw [h] at hinv
  constructor
  · intro tn htn
    rcases List.mem_cons.mp htn with rfl | htn
    · exact ⟨le_refl _, fun _ => le_refl _⟩
    · have hr := List.rel_of_sorted_cons hinv tn htn
      exact ⟨lexLE_weight hr, lexLE_idx hr⟩
  · intro tn htn
    rcases List.mem_cons.mp htn with rfl | htn
    · exact ⟨le_refl _, fun _ => le_refl _⟩
    · have hr := List.rel_of_sorted_cons hinv.of_cons tn htn
      exact ⟨lexLE_weight hr, lexLE_idx hr⟩

/-- Witness for C4: for the histogram `{65: 5, 66: 2, 67: 1}`, after one
merge the working set is `[⟨branch of weight 3, #3⟩, ⟨leaf 65 of weight 5,
#2⟩]` and the head satisfies the selection rule. -/
theorem merge_tie_break_witness :
    (∀ tn ∈ [(⟨.branch 3 (.leaf 1 67) (.leaf 2 66), 3⟩ : TaggedNode),
        (⟨.leaf 5 65, 2⟩ : TaggedNode)],
      (HuffmanNode.branch 3 (.leaf 1 67) (.leaf 2 66)).byte_counter ≤
        tn.node.byte_counter ∧
      ((HuffmanNode.branch 3 (.leaf 1 67) (.leaf 2 66)).byte_counter =
        tn.node.byte_counter → 3 ≤ tn.idx)) ∧
    (∀ tn ∈ [(⟨.leaf 5 65, 2⟩ : TaggedNode)],
      (HuffmanNode.leaf 5 65).byte_counter ≤ tn.node.byte_counter ∧
      ((HuffmanNode.leaf 5 65).byte_counter = tn.node.byte_counter →
        2 ≤ tn.idx)) :=
  merge_tie_break [(65, 5), (66, 2), (67, 1)] 1
    ⟨.branch 3 (.leaf 1 67) (.leaf 2 66), 3⟩ ⟨.leaf 5 65, 2⟩ [] (by decide)

end HuffmanCoding
